import Mathlib

/-!
Shallow embedding of the graph expansion and distribution core of
`src/components/planner/plannerFlowUtils.tsx` (`generateReactFlowData`).

External collaborators are kept abstract:
the production-flow builder (`buildProductionFlow`) is a parameter
`provider`; the ore-quality yield table (`ORE_QUALITY_RATES`, defined in
`types.ts`, outside this module) is a parameter `rates`; the dagre layout
engine only assigns coordinates and never changes the node/edge sets, so it
is omitted.  Floating-point numbers are modelled by `ℚ`.
-/

namespace Planner

/-- Ore qualities are string tags (the enumeration lives outside the module). -/
abbrev OreQuality := String

/-- The fields of a `ProductionNode` consumed by the transformation core.
Presentation-only fields (names, points, launch time) are omitted. -/
structure ProductionNode where
  buildingId : String
  recipeIndex : Nat
  outputItem : String
  outputAmount : ℚ
  buildingCount : ℚ
  powerPerBuilding : ℚ
  totalPower : ℚ
  deriving Repr, DecidableEq

/-- A base edge of the production flow: `{ from, to, itemId, amount }`. -/
structure FlowEdge where
  fromKey : String
  toKey : String
  itemId : String
  amount : ℚ
  deriving Repr, DecidableEq

/-- One entry of the `expandedNodes` array built by `generateReactFlowData`. -/
structure ExpandedEntry where
  node : ProductionNode
  originalKey : String
  sourceIndex : Option Nat
  sourceCount : Option Nat
  sourceQuality : Option OreQuality
  deriving Repr, DecidableEq

/-- One entry of the `expandedEdges` array. -/
structure ExpandedEdge where
  fromIndex : Nat
  toIndex : Nat
  itemId : String
  amount : ℚ
  deriving Repr, DecidableEq

/-- The base graph returned by the external `buildProductionFlow`. -/
structure BaseGraph where
  nodes : List ProductionNode
  edges : List FlowEdge

/-- Line 87: the join key of a base node. -/
def nodeKey (node : ProductionNode) : String :=
  node.buildingId ++ "_" ++ toString node.recipeIndex ++ "_" ++ node.outputItem

/-- Lines 81-84: configured origin list of an item, defaulting to a single
normal origin when absent or empty.  A `Record<string, OreQuality[]>` is
modelled as a total function where an absent key yields `[]`. -/
def getOreSources (cfg : String → List OreQuality) (itemId : String) :
    List OreQuality :=
  if (cfg itemId).length > 0 then cfg itemId else ["normal"]

/-- Line 91: the equal share of demand each origin of an `n`-way split serves. -/
def share (n : Nat) : ℚ :=
  if n > 0 then 1 / (n : ℚ) else 1

/-- The per-origin demand `totalDemand * share` appearing on line 95. -/
def originDemand (node : ProductionNode) (n : Nat) : ℚ :=
  node.buildingCount * node.outputAmount * share n

/-- Lines 88-116: the split entries emitted for one `ore_excavator` node,
in origin order (without their global indices). -/
def expandOreNode (rates : OreQuality → ℚ) (cfg : String → List OreQuality)
    (node : ProductionNode) : List ExpandedEntry :=
  let sources := getOreSources cfg node.outputItem
  let totalDemand := node.buildingCount * node.outputAmount
  sources.enum.map fun p =>
    let outputRate := rates p.2
    let buildingCount :=
      if outputRate > 0 then totalDemand * share sources.length / outputRate else 0
    let totalPower := (⌈buildingCount⌉ : ℚ) * node.powerPerBuilding
    { node := { node with
        outputAmount := outputRate
        buildingCount := buildingCount
        totalPower := totalPower }
      originalKey := nodeKey node
      sourceIndex := some p.1
      sourceCount := some sources.length
      sourceQuality := some p.2 }

/-- The accumulated state of the expansion loop: the `expandedNodes` array and
the `nodeKeyToExpandedIndexes` map (absent key ↦ `[]`). -/
structure ExpansionState where
  entries : List ExpandedEntry
  keyMap : String → List Nat

/-- Lines 86-123, one iteration: an `ore_excavator` node appends one entry per
origin and pushes their indices onto its key; any other node appends a single
entry and overwrites its key with that singleton. -/
def expandStep (rates : OreQuality → ℚ) (cfg : String → List OreQuality)
    (st : ExpansionState) (node : ProductionNode) : ExpansionState :=
  let key := nodeKey node
  if node.buildingId = "ore_excavator" then
    let newEntries := expandOreNode rates cfg node
    let idxs := (List.range newEntries.length).map (· + st.entries.length)
    { entries := st.entries ++ newEntries
      keyMap := fun k => if k = key then st.keyMap k ++ idxs else st.keyMap k }
  else
    { entries := st.entries ++ [⟨node, key, none, none, none⟩]
      keyMap := fun k => if k = key then [st.entries.length] else st.keyMap k }

/-- Lines 86-123: the whole expansion loop over the base node list. -/
def expandAll (rates : OreQuality → ℚ) (cfg : String → List OreQuality)
    (nodes : List ProductionNode) : ExpansionState :=
  nodes.foldl (expandStep rates cfg) ⟨[], fun _ => []⟩

/-- Lines 132-151: the expanded edges emitted for one base edge.  A dangling
endpoint drops the edge; otherwise one edge per (fromIndex, toIndex) pair of
the cartesian product, each carrying `amount * (1 / fromIndexes.length)`. -/
def distributeEdge (keyMap : String → List Nat) (e : FlowEdge) :
    List ExpandedEdge :=
  let fromIndexes := keyMap e.fromKey
  let toIndexes := keyMap e.toKey
  if fromIndexes.length = 0 ∨ toIndexes.length = 0 then []
  else
    fromIndexes.flatMap fun fi =>
      toIndexes.map fun ti =>
        ⟨fi, ti, e.itemId, e.amount * (1 / (fromIndexes.length : ℚ))⟩

/-- Lines 132-151: the whole edge-distribution loop. -/
def distributeEdges (keyMap : String → List Nat) (es : List FlowEdge) :
    List ExpandedEdge :=
  es.flatMap (distributeEdge keyMap)

/-- Line 362: the identity string of an expanded edge. -/
def edgeId (e : ExpandedEdge) : String :=
  "node_" ++ toString e.fromIndex ++ "-node_" ++ toString e.toIndex
    ++ "-" ++ e.itemId

/-- Lines 356-380: the deduplication loop; `acc` is `reactFlowEdges` so far and
membership of an identity in `acc.map edgeId` models the `edgeIdSet` test. -/
def dedupAux (acc : List ExpandedEdge) : List ExpandedEdge → List ExpandedEdge
  | [] => acc
  | e :: rest =>
      if edgeId e ∈ acc.map edgeId then dedupAux acc rest
      else dedupAux (acc ++ [e]) rest

/-- Lines 356-380: deduplicate expanded edges, keeping first occurrences. -/
def dedupEdges (es : List ExpandedEdge) : List ExpandedEdge :=
  dedupAux [] es

/-- Line 56: non-positive target amounts are replaced by 1. -/
def validAmount (targetAmount : ℚ) : ℚ :=
  if targetAmount > 0 then targetAmount else 1

/-- Lines 59-64: the per-item quality handed to the flow builder is the first
configured origin, defaulting to normal. -/
def oreQualityByItem (cfg : String → List OreQuality) (itemId : String) :
    OreQuality :=
  (cfg itemId).headD "normal"

/-- Lines 66-70: the base graph obtained from the external flow builder. -/
def baseGraphOf (provider : String → ℚ → (String → OreQuality) → BaseGraph)
    (targetItemId : String) (targetAmount : ℚ)
    (cfg : String → List OreQuality) : BaseGraph :=
  provider targetItemId (validAmount targetAmount) (oreQualityByItem cfg)

/-- The transformation core of `generateReactFlowData`: build the base graph,
expand its nodes, distribute its edges and deduplicate them.  The layout step
only assigns coordinates and is omitted. -/
def generateFlow (rates : OreQuality → ℚ)
    (provider : String → ℚ → (String → OreQuality) → BaseGraph)
    (targetItemId : String) (targetAmount : ℚ)
    (cfg : String → List OreQuality) :
    List ExpandedEntry × List ExpandedEdge :=
  let base := baseGraphOf provider targetItemId targetAmount cfg
  let st := expandAll rates cfg base.nodes
  (st.entries, dedupEdges (distributeEdges st.keyMap base.edges))

/-! Concrete fixtures used by witnesses. -/

/-- Yield table with a rich, a normal and an implicit zero-rate quality. -/
def sampleRates : OreQuality → ℚ :=
  fun q => if q = "rich" then 10 else if q = "normal" then 5 else 0

/-- Two configured origins of rates 5 and 10 for iron ore. -/
def sampleCfg : String → List OreQuality :=
  fun it => if it = "iron_ore" then ["normal", "rich"] else []

/-- An excavator node with total demand 100. -/
def sampleNode : ProductionNode :=
  ⟨"ore_excavator", 0, "iron_ore", 10, 10, 3, 30⟩

/-- Two configured origins whose first has yield rate 0 under `sampleRates`. -/
def zeroCfg : String → List OreQuality :=
  fun it => if it = "iron_ore" then ["bad", "normal"] else []

/-- An excavator node with total demand 60. -/
def zeroNode : ProductionNode :=
  ⟨"ore_excavator", 0, "iron_ore", 60, 1, 3, 3⟩

/-- Key map of a 3-way-split source and a non-split destination. -/
def fanKm : String → List Nat :=
  fun k => if k = "s" then [0, 1, 2] else if k = "d" then [3] else []

/-- A base edge of amount 9. -/
def fanEdge : FlowEdge := ⟨"s", "d", "iron", 9⟩

/-- Key map of a non-split source and a 2-way-split destination. -/
def splitKm : String → List Nat :=
  fun k => if k = "s" then [0] else if k = "d" then [1, 2] else []

/-- A base edge of amount 10. -/
def splitEdge : FlowEdge := ⟨"s", "d", "iron", 10⟩

/-- Expanded edges with a colliding identity. -/
def dupEdges : List ExpandedEdge :=
  [⟨0, 1, "a", 3⟩, ⟨0, 1, "a", 5⟩, ⟨0, 2, "a", 4⟩]

/-- A provider returning a fixed two-node chain. -/
def chainProvider : String → ℚ → (String → OreQuality) → BaseGraph :=
  fun _ _ _ =>
    ⟨[⟨"smelter", 0, "iron", 1, 1, 1, 1⟩, ⟨"mill", 0, "plate", 1, 1, 1, 1⟩],
      [⟨"smelter_0_iron", "mill_0_plate", "iron", 10⟩]⟩

/-- A provider whose output depends on the quality it is handed for iron ore. -/
def qualityProvider : String → ℚ → (String → OreQuality) → BaseGraph :=
  fun tid amt q => ⟨[⟨q "iron_ore", 0, tid, amt, 1, 1, 1⟩], []⟩

/-- Origin configuration with a tail behind the first entry. -/
def cfgA : String → List OreQuality :=
  fun it => if it = "iron_ore" then ["rich", "poor"] else []

/-- Origin configuration agreeing with `cfgA` on first entries only. -/
def cfgB : String → List OreQuality :=
  fun it => if it = "iron_ore" then ["rich"] else []

/-! Helper lemmas. -/

theorem sum_map_const {α : Type} (l : List α) (c : ℚ) :
    (l.map fun _ => c).sum = (l.length : ℚ) * c := by
  induction l with
  | nil => simp
  | cons a t ih =>
      simp only [List.map_cons, List.sum_cons, ih, List.length_cons]
      push_cast
      ring

theorem getOreSources_length_pos (cfg : String → List OreQuality)
    (itemId : String) : 1 ≤ (getOreSources cfg itemId).length := by
  unfold getOreSources
  split
  · omega
  · simp

theorem expandOreNode_length (rates : OreQuality → ℚ)
    (cfg : String → List OreQuality) (node : ProductionNode) :
    (expandOreNode rates cfg node).length
      = (getOreSources cfg node.outputItem).length := by
  simp [expandOreNode]

/-- Claim C1: for every base node that the Source Expander splits into N ≥ 1
origins, the per-origin demands (each equal to `totalDemand * share`, the
quantity a positive-yield origin's unit count times its yield rate recovers)
sum across all N origins to the original node's total demand
`buildingCount * outputAmount`, for every yield-rate vector, including
vectors containing a zero entry. -/
theorem demand_conservation (rates : OreQuality → ℚ)
    (cfg : String → List OreQuality) (node : ProductionNode)
    (hx : node.buildingId = "ore_excavator") :
    (∀ st : ExpansionState,
      (expandStep rates cfg st node).entries
        = st.entries ++ expandOreNode rates cfg node) ∧
    1 ≤ (getOreSources cfg node.outputItem).length ∧
    ((expandOreNode rates cfg node).map
        (fun _ => originDemand node (getOreSources cfg node.outputItem).length)).sum
      = node.buildingCount * node.outputAmount ∧
    ∀ e ∈ expandOreNode rates cfg node, 0 < e.node.outputAmount →
      e.node.buildingCount * e.node.outputAmount
        = originDemand node (getOreSources cfg node.outputItem).length := by
  refine ⟨fun st => by simp [expandStep, hx], getOreSources_length_pos cfg node.outputItem,
    ?_, ?_⟩
  · rw [sum_map_const, expandOreNode_length]
    have hN := getOreSources_length_pos cfg node.outputItem
    have hN0 : ((getOreSources cfg node.outputItem).length : ℚ) ≠ 0 := by
      have : 0 < (getOreSources cfg node.outputItem).length := hN
      exact_mod_cast this.ne'
    unfold originDemand share
    rw [if_pos (by omega)]
    field_simp
  · intro e he hpos
    unfold expandOreNode at he
    simp only [List.mem_map] at he
    obtain ⟨p, hp, rfl⟩ := he
    simp only at hpos ⊢
    rw [if_pos hpos]
    unfold originDemand
    field_simp

/-- Claim C1 witness: the conservation instantiated at a node of total demand
60 with a zero-yield first origin. -/
theorem demand_conservation_witness :
    ((expandOreNode sampleRates zeroCfg zeroNode).map
        (fun _ => originDemand zeroNode
          (getOreSources zeroCfg zeroNode.outputItem).length)).sum
      = zeroNode.buildingCount * zeroNode.outputAmount :=
  (demand_conservation sampleRates zeroCfg zeroNode rfl).2.2.1

theorem map_sum_flatMap {α β : Type} (l : List α) (f : α → List β) (g : β → ℚ) :
    ((l.flatMap f).map g).sum = (l.map fun a => ((f a).map g).sum).sum := by
  induction l with
  | nil => simp
  | cons a t ih => simp [List.flatMap_cons, ih]

/-- Claim C2 counterexample: a base edge of amount 10 whose source resolves to
the single expansion 0 (so every emitted edge shares that source position) and
whose destination resolves to two expansions; the emitted amounts sum to 20,
not to the original amount 10. -/
theorem edge_conservation_cex :
    distributeEdge splitKm splitEdge
      = [⟨0, 1, "iron", 10⟩, ⟨0, 2, "iron", 10⟩] ∧
    ((distributeEdge splitKm splitEdge).map (fun x => x.amount)).sum = 20 ∧
    splitEdge.amount = 10 ∧
    ((distributeEdge splitKm splitEdge).map (fun x => x.amount)).sum
      ≠ splitEdge.amount := by
  refine ⟨by simp [distributeEdge, splitKm, splitEdge],
    by simp [distributeEdge, splitKm, splitEdge]; norm_num,
    by simp [splitEdge],
    by simp [distributeEdge, splitKm, splitEdge]⟩

/-- Claim C2 (amended): for a base edge of amount A whose source key resolves
to F ≥ 1 expansions and whose destination key resolves to T expansions, the
sum of all emitted expanded-edge amounts equals A × T; in particular it equals
A exactly when the destination is not split (T = 1). -/
theorem edge_conservation_amended (km : String → List Nat) (e : FlowEdge)
    (hF : 1 ≤ (km e.fromKey).length) :
    ((distributeEdge km e).map (fun x => x.amount)).sum
      = e.amount * ((km e.toKey).length : ℚ) ∧
    ((km e.toKey).length = 1 →
      ((distributeEdge km e).map (fun x => x.amount)).sum = e.amount) := by
  have hF0 : ((km e.fromKey).length : ℚ) ≠ 0 := by
    have : 0 < (km e.fromKey).length := hF
    exact_mod_cast this.ne'
  have hmain : ((distributeEdge km e).map (fun x => x.amount)).sum
      = e.amount * ((km e.toKey).length : ℚ) := by
    simp only [distributeEdge]
    by_cases hT : km e.toKey = []
    · rw [if_pos (Or.inr (by simp [hT]))]
      simp [hT]
    · have hcond : ¬((km e.fromKey).length = 0 ∨ (km e.toKey).length = 0) := by
        rintro (h | h)
        · omega
        · exact hT (List.length_eq_zero.mp h)
      rw [if_neg hcond, map_sum_flatMap]
      have hinner : ∀ fi : Nat,
          (((km e.toKey).map fun ti =>
              (⟨fi, ti, e.itemId, e.amount * (1 / ((km e.fromKey).length : ℚ))⟩ :
                ExpandedEdge)).map fun x => x.amount).sum
            = ((km e.toKey).length : ℚ)
                * (e.amount * (1 / ((km e.fromKey).length : ℚ))) := by
        intro fi
        rw [List.map_map]
        exact sum_map_const _ _
      simp only [hinner]
      rw [sum_map_const]
      field_simp
      ring
  exact ⟨hmain, fun hT => by rw [hmain, hT]; simp⟩

/-- Claim C2 (amended) witness: the amended conservation instantiated at the
split-destination fixture, where the total equals 10 × 2. -/
theorem edge_conservation_amended_witness :
    ((distributeEdge splitKm splitEdge).map (fun x => x.amount)).sum
      = splitEdge.amount * ((splitKm splitEdge.toKey).length : ℚ) :=
  (edge_conservation_amended splitKm splitEdge (by decide)).1

theorem length_flatMap_const {α β : Type} (l : List α) (f : α → List β) (n : Nat)
    (h : ∀ a ∈ l, (f a).length = n) : (l.flatMap f).length = l.length * n := by
  induction l with
  | nil => simp
  | cons a t ih =>
      simp only [List.flatMap_cons, List.length_append, List.length_cons]
      rw [h a (by simp), ih (fun b hb => h b (by simp [hb]))]
      ring

/-- Claim C3: a base edge whose endpoints resolve to F ≥ 1 and T ≥ 1 expanded
indices yields exactly one expanded edge per (fromIndex, toIndex) pair of the
cartesian product — F × T edges in total — each carrying the original item
identifier and amount = original amount / F. -/
theorem cartesian_fanout (km : String → List Nat) (e : FlowEdge)
    (hF : 1 ≤ (km e.fromKey).length) (hT : 1 ≤ (km e.toKey).length) :
    distributeEdge km e
      = (km e.fromKey).flatMap (fun fi => (km e.toKey).map (fun ti =>
          ⟨fi, ti, e.itemId, e.amount / ((km e.fromKey).length : ℚ)⟩)) ∧
    (distributeEdge km e).length
      = (km e.fromKey).length * (km e.toKey).length := by
  have heq : distributeEdge km e
      = (km e.fromKey).flatMap (fun fi => (km e.toKey).map (fun ti =>
          ⟨fi, ti, e.itemId, e.amount / ((km e.fromKey).length : ℚ)⟩)) := by
    unfold distributeEdge
    rw [if_neg (by omega)]
    simp [one_div, div_eq_mul_inv]
  refine ⟨heq, ?_⟩
  rw [heq, length_flatMap_const _ _ (km e.toKey).length (fun a _ => by simp)]

/-- Claim C3 witness: scenario 4 — a 3-way-split source, a non-split
destination and base amount 9 yield 3 edges, each of amount 3, all targeting
destination index 3. -/
theorem cartesian_fanout_witness :
    distributeEdge fanKm fanEdge
      = [⟨0, 3, "iron", 3⟩, ⟨1, 3, "iron", 3⟩, ⟨2, 3, "iron", 3⟩] ∧
    (distributeEdge fanKm fanEdge).length = 3 := by
  have h := cartesian_fanout fanKm fanEdge (by decide) (by decide)
  exact ⟨h.1.trans (by simp [fanKm, fanEdge]; norm_num),
    h.2.trans (by decide)⟩

/-- Claim C7: a base edge whose from-key or to-key has no expanded index emits
nothing and is dropped silently, leaving the edges distributed for the other
base edges unchanged. -/
theorem dangling_edge_dropped (km : String → List Nat) (e : FlowEdge)
    (h : km e.fromKey = [] ∨ km e.toKey = [])
    (es1 es2 : List FlowEdge) :
    distributeEdge km e = [] ∧
    distributeEdges km (es1 ++ e :: es2) = distributeEdges km (es1 ++ es2) := by
  have hnil : distributeEdge km e = [] := by
    unfold distributeEdge
    rcases h with h | h <;> rw [if_pos (by simp [h])]
  refine ⟨hnil, ?_⟩
  unfold distributeEdges
  simp [List.flatMap_append, List.flatMap_cons, hnil]

/-- Claim C7 witness: the dangling-edge policy instantiated at an edge whose
destination key is absent from the fixture key map. -/
theorem dangling_edge_dropped_witness :
    distributeEdge fanKm ⟨"s", "missing", "iron", 4⟩ = [] ∧
    distributeEdges fanKm [⟨"s", "missing", "iron", 4⟩, fanEdge]
      = distributeEdges fanKm [fanEdge] := by
  have h := dangling_edge_dropped fanKm ⟨"s", "missing", "iron", 4⟩
    (Or.inr (by decide)) [] [fanEdge]
  simpa using h

/-- Claim C8: a non-positive target amount is replaced by 1 before the
production flow is built — the pipeline output is the same as with target
amount 1 — and a strictly positive target amount is used unchanged. -/
theorem target_amount_fallback (a : ℚ) :
    (a ≤ 0 → validAmount a = 1 ∧
      ∀ (rates : OreQuality → ℚ)
        (provider : String → ℚ → (String → OreQuality) → BaseGraph)
        (targetItemId : String) (cfg : String → List OreQuality),
        generateFlow rates provider targetItemId a cfg
          = generateFlow rates provider targetItemId 1 cfg) ∧
    (0 < a → validAmount a = a) := by
  constructor
  · intro ha
    have hv : validAmount a = 1 := by
      unfold validAmount
      rw [if_neg (by linarith)]
    refine ⟨hv, ?_⟩
    intro rates provider targetItemId cfg
    unfold generateFlow baseGraphOf
    rw [hv]
    have : validAmount 1 = 1 := by unfold validAmount; norm_num
    rw [this]
  · intro ha
    unfold validAmount
    rw [if_pos ha]

/-- Claim C8 witness: the fallback at target amount -2 and the identity at
target amount 3. -/
theorem target_amount_fallback_witness :
    validAmount (-2) = 1 ∧ validAmount 3 = 3 :=
  ⟨((target_amount_fallback (-2)).1 (by norm_num)).1,
    (target_amount_fallback 3).2 (by norm_num)⟩

/-- Claim C5: a zero-yield origin never divides by zero — its expanded node
reports 0 required units and 0 power — and in scenario 3 (demand 60, two
configured origins of which the first has yield 0) the zero-yield expansion
reports 0 units and 0 power while the other expansion absorbs only its own
share of 30. -/
theorem zero_yield_guard (rates : OreQuality → ℚ) (cfg : String → List OreQuality)
    (node : ProductionNode) :
    (∀ e ∈ expandOreNode rates cfg node, ∀ q, e.sourceQuality = some q →
        rates q = 0 → e.node.buildingCount = 0 ∧ e.node.totalPower = 0) ∧
    (∀ q0 q1, node.buildingCount * node.outputAmount = 60 →
      cfg node.outputItem = [q0, q1] → rates q0 = 0 → 0 < rates q1 →
      (expandOreNode rates cfg node).length = 2 ∧
      ((expandOreNode rates cfg node).map fun e => e.node.buildingCount).head?
        = some 0 ∧
      ((expandOreNode rates cfg node).map fun e => e.node.totalPower).head?
        = some 0 ∧
      ((expandOreNode rates cfg node).map fun e =>
          e.node.buildingCount * e.node.outputAmount) = [0, 30]) := by
  constructor
  · intro e he q hq hrq
    simp only [expandOreNode, List.mem_map] at he
    obtain ⟨p, hp, rfl⟩ := he
    simp only [Option.some.injEq] at hq
    subst hq
    simp [hrq]
  · intro q0 q1 hd hcfg hr0 hr1
    have hsrc : getOreSources cfg node.outputItem = [q0, q1] := by
      unfold getOreSources
      rw [hcfg]
      simp
    simp only [expandOreNode, hsrc, List.enum, List.enumFrom, List.map_cons,
      List.map_nil, List.length_cons, List.length_nil, List.head?]
    refine ⟨trivial, ?_, ?_, ?_⟩
    · simp [hr0]
    · simp [hr0]
    · simp only [if_pos hr1, hr0]
      rw [hd]
      have hr1ne : rates q1 ≠ 0 := hr1.ne'
      unfold share
      norm_num
      field_simp

/-- Claim C5 witness: scenario 3 instantiated at the zero-yield fixtures. -/
theorem zero_yield_guard_witness :
    (expandOreNode sampleRates zeroCfg zeroNode).length = 2 ∧
    ((expandOreNode sampleRates zeroCfg zeroNode).map
        fun e => e.node.buildingCount).head? = some 0 ∧
    ((expandOreNode sampleRates zeroCfg zeroNode).map
        fun e => e.node.totalPower).head? = some 0 ∧
    ((expandOreNode sampleRates zeroCfg zeroNode).map
        fun e => e.node.buildingCount * e.node.outputAmount) = [0, 30] :=
  (zero_yield_guard sampleRates zeroCfg zeroNode).2 "bad" "normal"
    (by norm_num [zeroNode]) (by simp [zeroCfg, zeroNode]) (by simp [sampleRates])
    (by simp [sampleRates])

/-- Claim C6: every expanded node's output-amount field equals its own
origin's yield rate, and in scenario 2 (demand 100, two origins of rates 5
and 10) the expander outputs exactly 2 nodes, the first serving demand 50
with 10 required units and the second serving demand 50 with 5 required
units. -/
theorem source_expander_splits (rates : OreQuality → ℚ)
    (cfg : String → List OreQuality) (node : ProductionNode) :
    (∀ e ∈ expandOreNode rates cfg node, ∃ q, e.sourceQuality = some q ∧
        e.node.outputAmount = rates q) ∧
    (∀ q0 q1, node.buildingCount * node.outputAmount = 100 →
      cfg node.outputItem = [q0, q1] → rates q0 = 5 → rates q1 = 10 →
      (expandOreNode rates cfg node).length = 2 ∧
      ((expandOreNode rates cfg node).map fun e => e.node.buildingCount)
        = [10, 5] ∧
      ((expandOreNode rates cfg node).map fun e => e.node.outputAmount)
        = [rates q0, rates q1] ∧
      ((expandOreNode rates cfg node).map fun e =>
          e.node.buildingCount * e.node.outputAmount) = [50, 50]) := by
  constructor
  · intro e he
    simp only [expandOreNode, List.mem_map] at he
    obtain ⟨p, hp, rfl⟩ := he
    exact ⟨p.2, rfl, rfl⟩
  · intro q0 q1 hd hcfg hr0 hr1
    have hsrc : getOreSources cfg node.outputItem = [q0, q1] := by
      unfold getOreSources
      rw [hcfg]
      simp
    simp only [expandOreNode, hsrc, List.enum, List.enumFrom, List.map_cons,
      List.map_nil, List.length_cons, List.length_nil]
    rw [hd, hr0, hr1]
    unfold share
    norm_num

/-- Claim C6 witness: scenario 2 instantiated at the two-origin fixtures. -/
theorem source_expander_splits_witness :
    (expandOreNode sampleRates sampleCfg sampleNode).length = 2 ∧
    ((expandOreNode sampleRates sampleCfg sampleNode).map
        fun e => e.node.buildingCount) = [10, 5] ∧
    ((expandOreNode sampleRates sampleCfg sampleNode).map
        fun e => e.node.outputAmount)
      = [sampleRates "normal", sampleRates "rich"] ∧
    ((expandOreNode sampleRates sampleCfg sampleNode).map
        fun e => e.node.buildingCount * e.node.outputAmount) = [50, 50] :=
  (source_expander_splits sampleRates sampleCfg sampleNode).2 "normal" "rich"
    (by norm_num [sampleNode]) (by simp [sampleCfg, sampleNode])
    (by simp [sampleRates]) (by simp [sampleRates])

theorem dedupAux_filter (id : String) :
    ∀ (es acc : List ExpandedEdge),
      (dedupAux acc es).filter (fun x => edgeId x == id)
        = acc.filter (fun x => edgeId x == id)
          ++ if id ∈ acc.map edgeId then []
             else (es.find? (fun x => edgeId x == id)).toList := by
  intro es
  induction es with
  | nil =>
      intro acc
      simp [dedupAux]
  | cons e rest ih =>
      intro acc
      by_cases hmem : edgeId e ∈ acc.map edgeId
      · have hstep : dedupAux acc (e :: rest) = dedupAux acc rest := by
          simp [dedupAux, hmem]
        rw [hstep, ih acc]
        by_cases hid : id ∈ acc.map edgeId
        · simp [hid]
        · have hne : (edgeId e == id) = false :=
            beq_eq_false_iff_ne.mpr (fun h => hid (h ▸ hmem))
          simp [hid, hne]
      · have hstep : dedupAux acc (e :: rest) = dedupAux (acc ++ [e]) rest := by
          simp [dedupAux, hmem]
        rw [hstep, ih (acc ++ [e])]
        by_cases hid : id = edgeId e
        · subst hid
          simp [hmem, List.filter_append]
        · have hne : (edgeId e == id) = false :=
            beq_eq_false_iff_ne.mpr (fun h => hid h.symm)
          have hfind : (e :: rest).find? (fun x => edgeId x == id)
              = rest.find? (fun x => edgeId x == id) := by
            simp [List.find?_cons, hne]
          have hfe : List.filter (fun x => edgeId x == id) [e] = [] := by
            simp [hne]
          simp only [List.filter_append, List.map_append, List.map_cons,
            List.map_nil, List.mem_append, List.mem_cons, List.not_mem_nil,
            or_false, hfind, hfe, List.append_nil]
          by_cases hacc : id ∈ acc.map edgeId
          · rw [if_pos hacc, if_pos (Or.inl hacc)]
          · rw [if_neg hacc, if_neg ?_]
            rintro (h | h)
            · exact hacc h
            · exact hid h

theorem dedupAux_nodup : ∀ (es acc : List ExpandedEdge),
    (acc.map edgeId).Nodup → ((dedupAux acc es).map edgeId).Nodup := by
  intro es
  induction es with
  | nil =>
      intro acc h
      simpa [dedupAux] using h
  | cons e rest ih =>
      intro acc h
      by_cases hmem : edgeId e ∈ acc.map edgeId
      · have hstep : dedupAux acc (e :: rest) = dedupAux acc rest := by
          simp [dedupAux, hmem]
        rw [hstep]
        exact ih acc h
      · have hstep : dedupAux acc (e :: rest) = dedupAux (acc ++ [e]) rest := by
          simp [dedupAux, hmem]
        rw [hstep]
        apply ih
        simp [List.nodup_append, h, hmem]

/-- Claim C4: edge identities derived from (source node, target node, item)
are unique in the deduplicated output, and for every input edge the output
retains exactly one edge with its identity — the first-emitted edge with that
identity (the one `find?` locates) — so later colliding edges are
discarded. -/
theorem edge_dedup_unique (es : List ExpandedEdge) :
    ((dedupEdges es).map edgeId).Nodup ∧
    ∀ e ∈ es, ∃ k, es.find? (fun x => edgeId x == edgeId e) = some k ∧
      edgeId k = edgeId e ∧
      (dedupEdges es).filter (fun x => edgeId x == edgeId e) = [k] := by
  refine ⟨dedupAux_nodup es [] (by simp), ?_⟩
  intro e he
  have hfilter := dedupAux_filter (edgeId e) es []
  simp only [List.filter_nil, List.map_nil, List.not_mem_nil, if_false,
    List.nil_append] at hfilter
  have hsome : (es.find? (fun x => edgeId x == edgeId e)).isSome := by
    rw [List.find?_isSome]
    exact ⟨e, he, by simp⟩
  obtain ⟨k, hk⟩ := Option.isSome_iff_exists.mp hsome
  refine ⟨k, hk, by simpa using List.find?_some hk, ?_⟩
  rw [dedupEdges, hfilter, hk]
  rfl

/-- Claim C4 witness: scenario 5 — of two expanded edges colliding on the
identity of `⟨0, 1, "a", _⟩`, exactly the first-emitted one (amount 3)
survives deduplication. -/
theorem edge_dedup_unique_witness :
    ((dedupEdges dupEdges).map edgeId).Nodup ∧
    (dedupEdges dupEdges).filter
        (fun x => edgeId x == edgeId (⟨0, 1, "a", 5⟩ : ExpandedEdge))
      = [⟨0, 1, "a", 3⟩] := by
  obtain ⟨h1, h2⟩ := edge_dedup_unique dupEdges
  obtain ⟨k, hk1, hk2, hk3⟩ := h2 ⟨0, 1, "a", 5⟩ (by simp [dupEdges])
  have hfind : dupEdges.find?
      (fun x => edgeId x == edgeId (⟨0, 1, "a", 5⟩ : ExpandedEdge))
      = some ⟨0, 1, "a", 3⟩ := by
    decide
  rw [hfind] at hk1
  have hke : (⟨0, 1, "a", 3⟩ : ExpandedEdge) = k := by
    injection hk1
  subst hke
  exact ⟨h1, hk3⟩

/-- Every index stored in the key-to-expanded-indices map is a valid index
into the expanded node list. -/
def mapBounded (st : ExpansionState) : Prop :=
  ∀ k, ∀ i ∈ st.keyMap k, i < st.entries.length

theorem expandStep_bounded (rates : OreQuality → ℚ)
    (cfg : String → List OreQuality) (node : ProductionNode)
    (st : ExpansionState) (h : mapBounded st) :
    mapBounded (expandStep rates cfg st node) := by
  intro k i hi
  simp only [expandStep] at hi ⊢
  by_cases hx : node.buildingId = "ore_excavator"
  · simp only [if_pos hx] at hi ⊢
    by_cases hk : k = nodeKey node
    · simp only [if_pos hk, List.mem_append, List.mem_map, List.mem_range] at hi
      simp only [List.length_append]
      rcases hi with hi | ⟨j, hj, rfl⟩
      · have := h k i hi
        omega
      · omega
    · simp only [if_neg hk] at hi
      have := h k i hi
      simp only [List.length_append]
      omega
  · simp only [if_neg hx] at hi ⊢
    by_cases hk : k = nodeKey node
    · simp only [if_pos hk, List.mem_singleton] at hi
      subst hi
      simp
    · simp only [if_neg hk] at hi
      have := h k i hi
      simp only [List.length_append, List.length_cons, List.length_nil]
      omega

theorem expandAll_bounded (rates : OreQuality → ℚ)
    (cfg : String → List OreQuality) (nodes : List ProductionNode) :
    mapBounded (expandAll rates cfg nodes) := by
  unfold expandAll
  have hgen : ∀ st, mapBounded st →
      mapBounded (nodes.foldl (expandStep rates cfg) st) := by
    induction nodes with
    | nil => intro st h; simpa using h
    | cons n t ih =>
        intro st h
        exact ih _ (expandStep_bounded rates cfg n st h)
  refine hgen _ ?_
  intro k i hi
  simp at hi

theorem mem_distributeEdge (km : String → List Nat) (e : FlowEdge)
    (x : ExpandedEdge) (hx : x ∈ distributeEdge km e) :
    x.fromIndex ∈ km e.fromKey ∧ x.toIndex ∈ km e.toKey := by
  simp only [distributeEdge] at hx
  split at hx
  · simp at hx
  · simp only [List.mem_flatMap, List.mem_map] at hx
    obtain ⟨fi, hfi, ti, hti, rfl⟩ := hx
    exact ⟨hfi, hti⟩

theorem mem_dedupAux : ∀ (es acc : List ExpandedEdge) (x : ExpandedEdge),
    x ∈ dedupAux acc es → x ∈ acc ∨ x ∈ es := by
  intro es
  induction es with
  | nil =>
      intro acc x hx
      simp only [dedupAux] at hx
      exact Or.inl hx
  | cons e rest ih =>
      intro acc x hx
      by_cases hmem : edgeId e ∈ acc.map edgeId
      · rw [show dedupAux acc (e :: rest) = dedupAux acc rest from by
          simp [dedupAux, hmem]] at hx
        rcases ih acc x hx with h | h
        · exact Or.inl h
        · exact Or.inr (List.mem_cons_of_mem _ h)
      · rw [show dedupAux acc (e :: rest) = dedupAux (acc ++ [e]) rest from by
          simp [dedupAux, hmem]] at hx
        rcases ih _ x hx with h | h
        · rcases List.mem_append.mp h with h | h
          · exact Or.inl h
          · simp only [List.mem_singleton] at h
            subst h
            exact Or.inr (List.mem_cons_self _ _)
        · exact Or.inr (List.mem_cons_of_mem _ h)

/-- Claim C9: every edge of the final flow graph carries a fromIndex and a
toIndex that are valid indices into the expanded node list, so every edge
references node ids that exist among the output nodes. -/
theorem edge_indices_valid (rates : OreQuality → ℚ)
    (provider : String → ℚ → (String → OreQuality) → BaseGraph)
    (targetItemId : String) (targetAmount : ℚ)
    (cfg : String → List OreQuality) :
    ∀ x ∈ (generateFlow rates provider targetItemId targetAmount cfg).2,
      x.fromIndex
          < (generateFlow rates provider targetItemId targetAmount cfg).1.length ∧
      x.toIndex
          < (generateFlow rates provider targetItemId targetAmount cfg).1.length := by
  intro x hx
  simp only [generateFlow, dedupEdges] at hx ⊢
  rcases mem_dedupAux _ [] x hx with h | h
  · simp at h
  · simp only [distributeEdges, List.mem_flatMap] at h
    obtain ⟨e, he, hxe⟩ := h
    have hb := mem_distributeEdge _ e x hxe
    have hbound := expandAll_bounded rates cfg
      (baseGraphOf provider targetItemId targetAmount cfg).nodes
    exact ⟨hbound _ _ hb.1, hbound _ _ hb.2⟩

/-- Claim C9 witness: index validity instantiated at a two-node chain whose
single surviving edge is `⟨0, 1, "iron", 10⟩`. -/
theorem edge_indices_valid_witness :
    (⟨0, 1, "iron", 10⟩ : ExpandedEdge).fromIndex
        < (generateFlow sampleRates chainProvider "t" 5 (fun _ => [])).1.length ∧
    (⟨0, 1, "iron", 10⟩ : ExpandedEdge).toIndex
        < (generateFlow sampleRates chainProvider "t" 5 (fun _ => [])).1.length :=
  edge_indices_valid sampleRates chainProvider "t" 5 (fun _ => [])
    ⟨0, 1, "iron", 10⟩
    (by
      simp only [generateFlow, baseGraphOf, validAmount, oreQualityByItem,
        expandAll, expandStep, chainProvider, nodeKey, distributeEdges,
        distributeEdge, dedupEdges, dedupAux, edgeId]
      norm_num
      decide)

/-- Claim C10: the quality passed per item to the flow builder is the first
entry of that item's configured origin list (normal when absent or empty),
and the base graph depends on the configuration only through those first
entries — origins at index 1 and beyond cannot influence it. -/
theorem base_graph_head_quality (cfg : String → List OreQuality)
    (itemId : String) :
    (∀ q rest, cfg itemId = q :: rest → oreQualityByItem cfg itemId = q) ∧
    (cfg itemId = [] → oreQualityByItem cfg itemId = "normal") ∧
    (∀ (provider : String → ℚ → (String → OreQuality) → BaseGraph)
        (targetItemId : String) (targetAmount : ℚ)
        (cfg2 : String → List OreQuality),
      (∀ it, (cfg it).headD "normal" = (cfg2 it).headD "normal") →
      baseGraphOf provider targetItemId targetAmount cfg
        = baseGraphOf provider targetItemId targetAmount cfg2) := by
  refine ⟨?_, ?_, ?_⟩
  · intro q rest h
    simp [oreQualityByItem, h]
  · intro h
    simp [oreQualityByItem, h]
  · intro provider tid a cfg2 h
    unfold baseGraphOf
    have hq : oreQualityByItem cfg = oreQualityByItem cfg2 := by
      funext it
      simpa [oreQualityByItem] using h it
    rw [hq]

/-- Claim C10 witness: two configurations sharing the first origin of iron ore
but differing in the tail produce the same base graph from a provider that
consumes the quality map. -/
theorem base_graph_head_quality_witness :
    baseGraphOf qualityProvider "t" 5 cfgA
      = baseGraphOf qualityProvider "t" 5 cfgB :=
  (base_graph_head_quality cfgA "iron_ore").2.2 qualityProvider "t" 5 cfgB
    (by
      intro it
      by_cases h : it = "iron_ore" <;> simp [cfgA, cfgB, h])

end Planner
